import Mathlib

/-!
Verification model of the MindTheGap document structuring and chunking
pipeline (`src/src/ocr.py`) and the retrieval context assembly step
(`src/src/rag_service.py`).  Text is modelled as `List Char`; machine
strings from the source become character lists.  Python regular
expressions used by the source are anchored keyword matchers, embedded
here as explicit word-by-word case-insensitive matching functions.
-/

/-- Characters of a string literal, used to transcribe string
constants of the source. -/
def chars (s : String) : List Char := s.toList

/-- ASCII whitespace, modelling the whitespace class used by the
patterns of the source and by Python string stripping. -/
def isSpaceChar (c : Char) : Bool :=
  c = ' ' || c = '\t' || c = '\n' || c = '\r' || c = '\x0b' || c = '\x0c'

/-- Word characters, modelling the regex word class `[a-zA-Z0-9_]`. -/
def isWordChar (c : Char) : Bool := c.isAlphanum || c = '_'

/-- Model of Python `str.strip()`: remove whitespace at both ends. -/
def stripChars (s : List Char) : List Char :=
  ((s.dropWhile isSpaceChar).reverse.dropWhile isSpaceChar).reverse

/-- Accumulator loop for `splitLines`. -/
def splitLinesAux (acc : List Char) : List Char → List (List Char)
  | [] => [acc.reverse]
  | c :: rest =>
    if c = '\n' then
      if rest.isEmpty then [acc.reverse]
      else acc.reverse :: splitLinesAux [] rest
    else splitLinesAux (c :: acc) rest

/-- Model of Python `str.splitlines()` on newline-separated text:
no trailing empty line for a trailing newline, and the empty string
yields no lines. -/
def splitLines (s : List Char) : List (List Char) :=
  if s.isEmpty then [] else splitLinesAux [] s

/-- Model of `"\n".join(lines)`. -/
def joinLines : List (List Char) → List Char
  | [] => []
  | [l] => l
  | l :: ls => l ++ '\n' :: joinLines ls

/-- Flatten pages into `(page_number, line)` pairs with 1-based page
numbers, as in `_split_sections` (lines 198-201 of `src/src/ocr.py`). -/
def flattenPages (pages : List (List Char)) : List (Nat × List Char) :=
  (pages.enum.map fun p => (splitLines p.2).map fun l => (p.1 + 1, l)).flatten

/-- Case-insensitive literal keyword match; the keyword is given in
lowercase.  Returns the remaining input on success. -/
def matchWordCI : List Char → List Char → Option (List Char)
  | [], s => some s
  | _ :: _, [] => none
  | k :: ks, c :: cs => if c.toLower = k then matchWordCI ks cs else none

/-- Regex word boundary after a word character: the remaining input is
empty or starts with a non-word character. -/
def wordBoundary : List Char → Bool
  | [] => true
  | c :: _ => !isWordChar c

/-- Match a sequence of keywords separated by at least one whitespace
character, ending at a word boundary — the shape of every alternative
in the heading patterns of the source. -/
def matchWordsFrom : List (List Char) → List Char → Bool
  | [], s => wordBoundary s
  | kw :: kws, s =>
    match matchWordCI kw s with
    | none => false
    | some r =>
      match kws with
      | [] => wordBoundary r
      | _ :: _ =>
        match r with
        | [] => false
        | c :: r2 => isSpaceChar c && matchWordsFrom kws (r2.dropWhile isSpaceChar)

/-- Match one alternative of an anchored pattern `^\s*KW\b...`:
optional leading whitespace then the keyword sequence. -/
def matchAlt (alt : List (List Char)) (line : List Char) : Bool :=
  matchWordsFrom alt (line.dropWhile isSpaceChar)

/-- Model of `_REFERENCES_CUTOFF.match(line)` from `src/src/ocr.py`
line 24: `^\s*(references|bibliography|works\s+cited|acknowledg(e)ments?)\b`,
case-insensitive.  The `(e)` group of the source pattern is mandatory,
so only the "acknowledgement(s)" spellings match. -/
def referencesCutoff (line : List Char) : Bool :=
  matchAlt [chars "references"] line ||
  matchAlt [chars "bibliography"] line ||
  matchAlt [chars "works", chars "cited"] line ||
  matchAlt [chars "acknowledgement"] line ||
  matchAlt [chars "acknowledgements"] line

/-- One entry of the section-heading catalog: the section label and the
keyword alternatives of its pattern. -/
structure SectionPat where
  name : String
  alts : List (List (List Char))
  deriving DecidableEq

/-- Model of `_SECTION_PATTERNS` (lines 25-36 of `src/src/ocr.py`), in
catalog order; the trailing `[:\.\s]*` of each pattern is dropped since
it never affects whether a match exists. -/
def sectionPatterns : List SectionPat := [
  ⟨"abstract",      [[chars "abstract"]]⟩,
  ⟨"introduction",  [[chars "introduction"]]⟩,
  ⟨"background",    [[chars "background"]]⟩,
  ⟨"related work",  [[chars "related", chars "work"]]⟩,
  ⟨"methods",       [[chars "methods"], [chars "method"], [chars "methodology"]]⟩,
  ⟨"results",       [[chars "results"], [chars "result"]]⟩,
  ⟨"discussion",    [[chars "discussion"]]⟩,
  ⟨"conclusion",    [[chars "conclusions"], [chars "conclusion"]]⟩,
  ⟨"limitations",   [[chars "limitations"], [chars "limitation"]]⟩,
  ⟨"future work",   [[chars "future", chars "work"], [chars "future", chars "directions"],
                     [chars "further", chars "work"]]⟩]

/-- A heading pattern matches a line when one of its alternatives does. -/
def matchesPat (p : SectionPat) (line : List Char) : Bool :=
  p.alts.any fun a => matchAlt a line

/-- First catalog pattern matching a line, modelling the inner loop
with `break` at lines 212-216 of `src/src/ocr.py`. -/
def headerName (line : List Char) : Option String :=
  (sectionPatterns.find? fun p => matchesPat p line).map fun p => p.name

/-- Indices and names of detected headings among the kept lines. -/
def findHeaders (lines : List (Nat × List Char)) : List (Nat × String) :=
  lines.enum.filterMap fun q => (headerName q.2.2).map fun n => (q.1, n)

/-- A segmented section: name, text, and page range, modelling the
section dicts built by `_split_sections`. -/
structure DocSection where
  name : String
  text : List Char
  page_start : Nat
  page_end : Nat
  deriving DecidableEq

/-- Minimum of a list of naturals (Python `min` on a non-empty list;
the empty case is never reached by the caller). -/
def listMin : List Nat → Nat
  | [] => 0
  | x :: xs => xs.foldl Nat.min x

/-- Maximum of a list of naturals (Python `max` on a non-empty list). -/
def listMax : List Nat → Nat
  | [] => 0
  | x :: xs => xs.foldl Nat.max x

/-- The end index of the section opened by the latest header: the next
line index of the next header, or the number of kept lines. -/
def nextBound (lines : List (Nat × List Char)) : List (Nat × String) → Nat
  | [] => lines.length
  | (nextIdx, _) :: _ => nextIdx

/-- Build sections from detected headers, modelling lines 224-237 of
`src/src/ocr.py`: the span of each heading runs to the next heading or the
end; empty-text sections are dropped. -/
def buildSections (lines : List (Nat × List Char)) : List (Nat × String) → List DocSection
  | [] => []
  | (startIdx, name) :: rest =>
    let chunkLines := (lines.drop startIdx).take (nextBound lines rest - startIdx)
    let text := stripChars (joinLines (chunkLines.map fun q => q.2))
    let secs := buildSections lines rest
    if text.isEmpty then secs
    else { name := name, text := text,
           page_start := listMin (chunkLines.map fun q => q.1),
           page_end := listMax (chunkLines.map fun q => q.1) } :: secs

/-- The no-heading fallback of `_split_sections` (lines 218-222): a
single "body" section over all kept text, or nothing when empty. -/
def bodyOnly (pages : List (List Char)) (fullLines : List (Nat × List Char)) : List DocSection :=
  let joined := stripChars (joinLines (fullLines.map fun q => q.2))
  if joined.isEmpty then []
  else [{ name := "body", text := joined, page_start := 1, page_end := pages.length }]

/-- Model of `_split_sections` (lines 197-239 of `src/src/ocr.py`):
flatten pages to lines, truncate at the first back-matter heading,
detect section headings, and build sections (or the "body" fallback). -/
def splitSections (pages : List (List Char)) : List DocSection :=
  let fullLines := (flattenPages pages).takeWhile fun q => !referencesCutoff q.2
  let headers := findHeaders fullLines
  if headers.isEmpty then bodyOnly pages fullLines
  else buildSections fullLines headers

/-- The allow-list of `_filter_sections` (line 242 of `src/src/ocr.py`). -/
def keepNames : List String :=
  ["abstract", "introduction", "conclusion", "future work", "limitations", "discussion"]

/-- Model of `_filter_sections` (lines 241-245): keep allow-listed
sections, else fall back to sections named "body", else empty. -/
def filterSections (sections : List DocSection) : List DocSection :=
  let kept := sections.filter fun s => keepNames.contains s.name
  if kept.isEmpty then sections.filter fun s => s.name == "body" else kept

example : referencesCutoff (chars "  References") = true := by decide
example : referencesCutoff (chars "references and more") = true := by decide
example : referencesCutoff (chars "referencesX") = false := by decide
example : referencesCutoff (chars "Works  Cited") = true := by decide
example : referencesCutoff (chars "ACKNOWLEDGEMENTS") = true := by decide
example : referencesCutoff (chars "see references") = false := by decide
example : headerName (chars "Introduction:") = some "introduction" := by decide
example : headerName (chars "  methodology.") = some "methods" := by decide
example : headerName (chars "Future Directions") = some "future work" := by decide
example : headerName (chars "hello world") = none := by decide
example : splitLines (chars "a\n\nb\n") = [chars "a", [], chars "b"] := by decide
example : splitSections [chars "hello there"] =
    [{ name := "body", text := chars "hello there", page_start := 1, page_end := 1 }] := by decide
example : splitSections [chars "Abstract\nwe study x", chars "References\nSmith"] =
    [{ name := "abstract", text := chars "Abstract\nwe study x",
       page_start := 1, page_end := 1 }] := by decide

/-- Character loop for `splitOnSeq`: while the skip counter is
positive, separator characters are being discarded; at zero, a fresh
separator occurrence opens a new piece. -/
def splitOnSeqAux (sep : List Char) : List Char → Nat → List (List Char)
  | [], _ => [[]]
  | _ :: rest, k + 1 => splitOnSeqAux sep rest k
  | c :: rest, 0 =>
    if !sep.isEmpty && sep.isPrefixOf (c :: rest) then
      [] :: splitOnSeqAux sep rest (sep.length - 1)
    else
      match splitOnSeqAux sep rest 0 with
      | [] => [[c]]
      | p :: ps => (c :: p) :: ps

/-- Split a character list on a (non-empty) separator sequence,
discarding separators; part of the text-splitter model. -/
def splitOnSeq (sep s : List Char) : List (List Char) :=
  splitOnSeqAux sep s 0

/-- Fuel-driven loop for `hardCut`; `hardCut` always supplies enough
fuel for the loop to run to completion. -/
def hardCutFuel (maxSize step : Nat) : Nat → List Char → List (List Char)
  | 0, text => [text]
  | fuel + 1, text =>
    if text.length ≤ maxSize || step == 0 then [text]
    else text.take maxSize :: hardCutFuel maxSize step fuel (text.drop step)

/-- Hard character cut: windows of at most `maxSize` characters whose
starts advance by `step` (so consecutive windows overlap by
`maxSize - step` characters); the fallback level of the splitter. -/
def hardCut (maxSize step : Nat) (text : List Char) : List (List Char) :=
  hardCutFuel maxSize step text.length text

/-- Modelled from the spec: the recursive size-bounded text splitter of
§4.5 (the source delegates to `RecursiveCharacterTextSplitter`, an
external library whose code is not in `src/`).  Text that fits in
`maxSize` stays whole; otherwise it is split on the preferred separator
and each piece is split recursively with the remaining separators,
falling back to a hard character cut with `overlap`-character overlap. -/
def recSplit (maxSize overlap : Nat) : List (List Char) → List Char → List (List Char)
  | seps, text =>
    if text.length ≤ maxSize then [text]
    else
      match seps with
      | [] => hardCut maxSize (maxSize - overlap) text
      | sep :: rest =>
        ((splitOnSeq sep text).map (recSplit maxSize overlap rest)).flatten

/-- Modelled from the spec: the splitter configured as in
`_chunk_sections` (line 248-250 of `src/src/ocr.py`) with separators
double newline, newline, space, then character boundary. -/
def splitterSplit (chunkSize chunkOverlap : Nat) (text : List Char) : List (List Char) :=
  recSplit chunkSize chunkOverlap [chars "\n\n", chars "\n", chars " "] text

/-- Per-chunk provenance carried next to each chunk, modelling the
`per_md` dicts of `_chunk_sections`. -/
structure ChunkMeta where
  sectionName : String
  page_start : Nat
  page_end : Nat
  deriving DecidableEq

/-- Model of `_chunk_sections` (lines 247-259 of `src/src/ocr.py`):
split the text of each section, keep non-empty stripped chunks, and extend
the chunk and provenance lists in section order. -/
def chunkSections (chunkSize chunkOverlap : Nat) :
    List DocSection → List (List Char) × List ChunkMeta
  | [] => ([], [])
  | sec :: rest =>
    let secChunks := ((splitterSplit chunkSize chunkOverlap sec.text).filter
      fun c => !c.isEmpty && !(stripChars c).isEmpty).map stripChars
    let r := chunkSections chunkSize chunkOverlap rest
    (secChunks ++ r.1,
     secChunks.map (fun _ => ⟨sec.name, sec.page_start, sec.page_end⟩) ++ r.2)

/-- Model of `doc_id` synthesis at line 74 of `src/src/ocr.py`:
base filename (extension removed) joined to the random suffix by an
underscore. -/
def mkDocId (baseName suffix : List Char) : List Char := baseName ++ '_' :: suffix

/-- The arguments of the single vector-store upsert call issued by
`_embed_upsert`. -/
structure UpsertCall where
  ids : List (List Char)
  documents : List (List Char)
  metadatas : List (ChunkMeta × Nat)
  deriving DecidableEq

/-- Model of `_embed_upsert` (lines 261-273 of `src/src/ocr.py`):
`none` when there are no chunks (the embed/upsert step is skipped),
otherwise the upsert call with ids `doc_id + "_chunk_" + i` and each
metadata dict extended with its running `chunk_index`. -/
def embedUpsert (docId : List Char) (chunks : List (List Char)) (perMd : List ChunkMeta) :
    Option UpsertCall :=
  if chunks.isEmpty then none
  else some
    { ids := (List.range chunks.length).map fun i =>
        docId ++ chars "_chunk_" ++ chars (toString i),
      documents := chunks,
      metadatas := perMd.enum.map fun p => (p.2, p.1) }

/-- The result dict of `ingest_path` (fields relevant to the claims). -/
structure IngestResult where
  ok : Bool
  pages : Nat
  chunks : Nat
  embedded : Nat
  ids : List (List Char)
  deriving DecidableEq

/-- Model of `ingest_path` (lines 57-99 of `src/src/ocr.py`) after page
extraction: segmentation, filtering, chunking, then the optional
embed/upsert call, returning the result dict and the upsert call made
(if any).  The random suffix drawn for `doc_id` is a parameter. -/
def ingestPath (pagesText : List (List Char)) (baseName suffix : List Char)
    (chunkSize chunkOverlap : Nat) : IngestResult × Option UpsertCall :=
  let docId := mkDocId baseName suffix
  let sections := splitSections pagesText
  let filtered := filterSections sections
  let cp := chunkSections chunkSize chunkOverlap filtered
  let up := embedUpsert docId cp.1 cp.2
  ({ ok := true, pages := pagesText.length, chunks := cp.1.length, embedded := cp.1.length,
     ids := ((List.range cp.1.length).map fun i =>
       docId ++ chars "_chunk_" ++ chars (toString i)).take 50 }, up)

/-- Model of `_extract_page_text_or_ocr` (lines 187-195 of
`src/src/ocr.py`).  The library outcomes are inputs: `extracted` is the
direct extraction result (`none` when no text came back) and `ocr` is
the OCR fallback result (`none` when rendering or OCR raised, which the
source catches and ignores). -/
def extractPageTextOrOcr (extracted : Option (List Char)) (ocr : Option (List Char)) :
    List Char :=
  let txt := stripChars (extracted.getD [])
  if txt.length < 30 then
    match ocr with
    | some o => stripChars o
    | none => txt
  else txt

/-- Model of the page loop of `_extract_pages` (lines 140-149): every
page contributes exactly one text, in order. -/
def extractPages (pageOutcomes : List (Option (List Char) × Option (List Char))) :
    List (List Char) :=
  pageOutcomes.map fun p => extractPageTextOrOcr p.1 p.2

/-- Model of `RAGService._build_context` (lines 39-48 of
`src/src/rag_service.py`): sentinel on empty input, else "[Source i]"
blocks with per-source 4000-character truncation, joined by blank
lines. -/
def buildContext (docs : List (List Char)) : List Char :=
  if docs.isEmpty then chars "No context available."
  else
    List.intercalate (chars "\n\n") (docs.enum.map fun p =>
      chars "[Source " ++ chars (toString (p.1 + 1)) ++ chars "]\n" ++
      (if p.2.length ≤ 4000 then p.2 else p.2.take 4000 ++ chars " ..."))

/-- The raw query response shape returned by the vector index: each
field is absent (`None`) or a list of per-query rows. -/
structure QueryRaw (α β γ δ : Type) where
  documents : Option (List (List α))
  metadatas : Option (List (List β))
  distances : Option (List (List γ))
  ids : Option (List (List δ))

/-- The hit lists returned by `RAGService.retrieve`. -/
structure RetrieveOut (α β γ δ : Type) where
  documents : List α
  metadatas : List β
  distances : List γ
  ids : List δ

/-- Model of `(res.get(key) or [[]])[0]`: first row of the field, or an
empty row when the field is absent or empty. -/
def firstRow {α : Type} : Option (List (List α)) → List α
  | none => []
  | some [] => []
  | some (r :: _) => r

/-- Model of `RAGService.retrieve` (lines 17-37 of
`src/src/rag_service.py`) after the index query: truncate all hit
lists to the common length `n`, with ids kept only when the index
returned any. -/
def retrieveModel {α β γ δ : Type} (res : QueryRaw α β γ δ) : RetrieveOut α β γ δ :=
  let docs := firstRow res.documents
  let metas := firstRow res.metadatas
  let dists := firstRow res.distances
  let ids := firstRow res.ids
  let n := if ids.isEmpty then min (min docs.length metas.length) dists.length
           else min (min (min docs.length metas.length) dists.length) ids.length
  { documents := docs.take n, metadatas := metas.take n, distances := dists.take n,
    ids := if ids.isEmpty then [] else ids.take n }

example : splitOnSeq [' '] (chars "one two  three") =
    [chars "one", chars "two", [], chars "three"] := by decide
example : hardCut 4 3 (chars "abcdefgh") = [chars "abcd", chars "defg", chars "gh"] := by decide
example : splitterSplit 5 1 (chars "one two three") =
    [chars "one", chars "two", chars "three"] := by decide
example : (chunkSections 500 50 [⟨"abstract", chars "we study x", 1, 1⟩]).1 =
    [chars "we study x"] := by decide
example : buildContext [] = chars "No context available." := by decide
example : buildContext [chars "aa", chars "b"] =
    chars "[Source 1]\naa\n\n[Source 2]\nb" := by decide
example : extractPageTextOrOcr none none = [] := by decide

/-! ### Helper lemmas about the splitter primitives -/

theorem take_isPre (n : Nat) (l : List Char) : l.take n <+: l :=
  ⟨l.drop n, List.take_append_drop n l⟩

theorem reverse_isPre {u v : List Char} (h : u <:+ v) : u.reverse <+: v.reverse := by
  obtain ⟨t, ht⟩ := h
  exact ⟨t.reverse, by rw [← List.reverse_append, ht]⟩

theorem splitOnSeqAux_shape (sep : List Char) :
    ∀ (s : List Char) (k : Nat),
      ∃ p ps, splitOnSeqAux sep s k = p :: ps ∧ p <+: s.drop k := by
  intro s
  induction s with
  | nil =>
    intro k
    exact ⟨[], [], by simp [splitOnSeqAux], by simp⟩
  | cons c rest ih =>
    intro k
    cases k with
    | succ k0 =>
      obtain ⟨p, ps, heq, hp⟩ := ih k0
      exact ⟨p, ps, by simpa [splitOnSeqAux] using heq, by simpa using hp⟩
    | zero =>
      by_cases hb : (!sep.isEmpty && sep.isPrefixOf (c :: rest)) = true
      · exact ⟨[], splitOnSeqAux sep rest (sep.length - 1),
          by simp [splitOnSeqAux, hb], by simp⟩
      · obtain ⟨p, ps, heq, hp⟩ := ih 0
        refine ⟨c :: p, ps, ?_, ?_⟩
        · simp only [splitOnSeqAux, hb, Bool.false_eq_true, if_false, heq]
        · simp only [List.drop_zero] at hp ⊢
          obtain ⟨t, ht⟩ := hp
          exact ⟨t, by simp [ht]⟩

theorem splitOnSeqAux_mem_inf (sep : List Char) :
    ∀ (s : List Char) (k : Nat) (c : List Char),
      c ∈ splitOnSeqAux sep s k → c <:+: s.drop k := by
  intro s
  induction s with
  | nil =>
    intro k c hc
    simp [splitOnSeqAux] at hc
    simp [hc]
  | cons a rest ih =>
    intro k c hc
    cases k with
    | succ k0 =>
      have hc' : c ∈ splitOnSeqAux sep rest k0 := hc
      simpa using ih k0 c hc'
    | zero =>
      simp only [List.drop_zero]
      by_cases hb : (!sep.isEmpty && sep.isPrefixOf (a :: rest)) = true
      · rw [show splitOnSeqAux sep (a :: rest) 0 =
            [] :: splitOnSeqAux sep rest (sep.length - 1) by
              simp [splitOnSeqAux, hb]] at hc
        rcases List.mem_cons.mp hc with h1 | h2
        · simp [h1]
        · have h3 := ih (sep.length - 1) c h2
          exact h3.trans ((List.drop_suffix _ _).isInfix.trans
            (List.suffix_cons a rest).isInfix)
      · obtain ⟨p, ps, heq, hp⟩ := splitOnSeqAux_shape sep rest 0
        rw [show splitOnSeqAux sep (a :: rest) 0 = (a :: p) :: ps by
              simp only [splitOnSeqAux, hb, Bool.false_eq_true, if_false, heq]] at hc
        rcases List.mem_cons.mp hc with h1 | h2
        · subst h1
          simp only [List.drop_zero] at hp
          obtain ⟨t, ht⟩ := hp
          exact ⟨[], t, by simp [ht]⟩
        · have h3 : c ∈ splitOnSeqAux sep rest 0 := heq ▸ List.mem_cons_of_mem p h2
          have h4 := ih 0 c h3
          simp only [List.drop_zero] at h4
          exact h4.trans (List.suffix_cons a rest).isInfix

theorem splitOnSeq_mem_inf (sep s c : List Char) (hc : c ∈ splitOnSeq sep s) :
    c <:+: s := by
  simpa using splitOnSeqAux_mem_inf sep s 0 c hc

theorem hardCutFuel_mem_inf (maxSize step : Nat) :
    ∀ (fuel : Nat) (text c : List Char),
      c ∈ hardCutFuel maxSize step fuel text → c <:+: text := by
  intro fuel
  induction fuel with
  | zero =>
    intro text c hc
    simp [hardCutFuel] at hc
    simp [hc]
  | succ f ih =>
    intro text c hc
    simp only [hardCutFuel] at hc
    split at hc
    · simp at hc
      simp [hc]
    · rcases List.mem_cons.mp hc with h1 | h2
      · exact h1 ▸ (take_isPre _ _).isInfix
      · exact (ih _ c h2).trans (List.drop_suffix _ _).isInfix

theorem hardCutFuel_mem_le (maxSize step : Nat) (hstep : 0 < step) :
    ∀ (fuel : Nat) (text : List Char), text.length ≤ fuel →
      ∀ c ∈ hardCutFuel maxSize step fuel text, c.length ≤ maxSize := by
  intro fuel
  induction fuel with
  | zero =>
    intro text hlen c hc
    simp [hardCutFuel] at hc
    subst hc
    omega
  | succ f ih =>
    intro text hlen c hc
    simp only [hardCutFuel] at hc
    by_cases hcond : (text.length ≤ maxSize || step == 0) = true
    · rw [if_pos hcond] at hc
      simp at hc hcond
      subst hc
      rcases hcond with h | h
      · exact h
      · omega
    · rw [if_neg hcond] at hc
      simp at hcond
      rcases List.mem_cons.mp hc with h1 | h2
      · subst h1
        simp [List.length_take]
      · refine ih (text.drop step) ?_ c h2
        simp only [List.length_drop]
        omega

theorem recSplit_mem_inf (maxSize overlap : Nat) :
    ∀ (seps : List (List Char)) (text c : List Char),
      c ∈ recSplit maxSize overlap seps text → c <:+: text := by
  intro seps
  induction seps with
  | nil =>
    intro text c hc
    by_cases h : text.length ≤ maxSize
    · simp [recSplit, h] at hc; simp [hc]
    · simp only [recSplit, h, if_false] at hc
      exact hardCutFuel_mem_inf maxSize (maxSize - overlap) text.length text c hc
  | cons sep rest ih =>
    intro text c hc
    by_cases h : text.length ≤ maxSize
    · simp [recSplit, h] at hc; simp [hc]
    · simp only [recSplit, h, if_false] at hc
      simp only [List.mem_flatten, List.mem_map] at hc
      obtain ⟨l, ⟨piece, hpiece, rfl⟩, hcl⟩ := hc
      exact (ih piece c hcl).trans (splitOnSeq_mem_inf sep text piece hpiece)

theorem recSplit_mem_le (maxSize overlap : Nat) (hov : overlap < maxSize) :
    ∀ (seps : List (List Char)) (text c : List Char),
      c ∈ recSplit maxSize overlap seps text → c.length ≤ maxSize := by
  intro seps
  induction seps with
  | nil =>
    intro text c hc
    by_cases h : text.length ≤ maxSize
    · simp [recSplit, h] at hc
      subst hc
      exact h
    · simp only [recSplit, h, if_false] at hc
      exact hardCutFuel_mem_le maxSize (maxSize - overlap) (by omega)
        text.length text (Nat.le_refl _) c hc
  | cons sep rest ih =>
    intro text c hc
    by_cases h : text.length ≤ maxSize
    · simp [recSplit, h] at hc
      subst hc
      exact h
    · simp only [recSplit, h, if_false] at hc
      simp only [List.mem_flatten, List.mem_map] at hc
      obtain ⟨l, ⟨piece, hpiece, rfl⟩, hcl⟩ := hc
      exact ih piece c hcl

/-! ### Helper lemmas about text joining and stripping -/

theorem joinLines_append (xs ys : List (List Char)) (hx : xs ≠ []) (hy : ys ≠ []) :
    joinLines (xs ++ ys) = joinLines xs ++ '\n' :: joinLines ys := by
  induction xs with
  | nil => exact absurd rfl hx
  | cons x xs' ih =>
    cases xs' with
    | nil =>
      cases ys with
      | nil => exact absurd rfl hy
      | cons y ys' => simp [joinLines]
    | cons x2 xs'' =>
      have e1 : joinLines (x :: x2 :: (xs'' ++ ys)) =
          x ++ '\n' :: joinLines (x2 :: (xs'' ++ ys)) := rfl
      have e2 : joinLines (x :: x2 :: xs'') = x ++ '\n' :: joinLines (x2 :: xs'') := rfl
      calc joinLines ((x :: x2 :: xs'') ++ ys)
          = x ++ '\n' :: joinLines ((x2 :: xs'') ++ ys) := by
            simp only [List.cons_append]; exact e1
        _ = x ++ '\n' :: (joinLines (x2 :: xs'') ++ '\n' :: joinLines ys) := by
            rw [ih (by simp)]
        _ = (x ++ '\n' :: joinLines (x2 :: xs'')) ++ '\n' :: joinLines ys := by simp
        _ = joinLines (x :: x2 :: xs'') ++ '\n' :: joinLines ys := by rw [e2]

theorem joinLines_pre (xs ys : List (List Char)) :
    joinLines xs <+: joinLines (xs ++ ys) := by
  by_cases hx : xs = []
  · simp [hx, joinLines]
  · by_cases hy : ys = []
    · simp [hy]
    · rw [joinLines_append xs ys hx hy]
      exact ⟨'\n' :: joinLines ys, rfl⟩

theorem joinLines_suffix (xs ys : List (List Char)) :
    joinLines ys <:+ joinLines (xs ++ ys) := by
  by_cases hx : xs = []
  · simp [hx]
  · by_cases hy : ys = []
    · simp [hy, joinLines]
    · rw [joinLines_append xs ys hx hy]
      exact ⟨joinLines xs ++ ['\n'], by simp⟩

theorem joinLines_mid (l : List (List Char)) (a b : Nat) :
    joinLines ((l.drop a).take b) <:+: joinLines l := by
  have h1 : joinLines ((l.drop a).take b) <+: joinLines (l.drop a) := by
    have := joinLines_pre ((l.drop a).take b) ((l.drop a).drop b)
    rwa [List.take_append_drop] at this
  have h2 : joinLines (l.drop a) <:+ joinLines l := by
    have := joinLines_suffix (l.take a) (l.drop a)
    rwa [List.take_append_drop] at this
  exact h1.isInfix.trans h2.isInfix

theorem stripChars_inf (s : List Char) : stripChars s <:+: s := by
  unfold stripChars
  have h1 : s.dropWhile isSpaceChar <:+ s := List.dropWhile_suffix _
  have h2 : (s.dropWhile isSpaceChar).reverse.dropWhile isSpaceChar <:+
      (s.dropWhile isSpaceChar).reverse := List.dropWhile_suffix _
  have h3 := reverse_isPre h2
  rw [List.reverse_reverse] at h3
  exact h3.isInfix.trans h1.isInfix

theorem stripChars_length_le (s : List Char) : (stripChars s).length ≤ s.length :=
  (stripChars_inf s).sublist.length_le

/-! ### Helper lemmas about segmentation and chunking -/

theorem buildSections_text_inf (lines : List (Nat × List Char)) :
    ∀ (headers : List (Nat × String)) (s : DocSection), s ∈ buildSections lines headers →
      s.text <:+: joinLines (lines.map fun q => q.2) := by
  intro headers
  induction headers with
  | nil => intro s hs; simp [buildSections] at hs
  | cons hd tl ih =>
    intro s hs
    obtain ⟨startIdx, name⟩ := hd
    simp only [buildSections] at hs
    split at hs
    · exact ih s hs
    · rcases List.mem_cons.mp hs with h1 | h2
      · subst h1
        refine (stripChars_inf _).trans ?_
        rw [List.map_take, List.map_drop]
        exact joinLines_mid _ _ _
      · exact ih s h2

theorem chunkSections_mem (cs co : Nat) :
    ∀ (sections : List DocSection) (c : List Char), c ∈ (chunkSections cs co sections).1 →
      ∃ sec, sec ∈ sections ∧ ∃ r, r ∈ splitterSplit cs co sec.text ∧ c = stripChars r := by
  intro sections
  induction sections with
  | nil => intro c hc; simp [chunkSections] at hc
  | cons sec rest ih =>
    intro c hc
    simp only [chunkSections] at hc
    rcases List.mem_append.mp hc with h1 | h2
    · obtain ⟨r, hr, rfl⟩ := List.mem_map.mp h1
      exact ⟨sec, List.mem_cons_self _ _, r, (List.mem_filter.mp hr).1, rfl⟩
    · obtain ⟨sec', hmem, hrest⟩ := ih c h2
      exact ⟨sec', List.mem_cons_of_mem _ hmem, hrest⟩

theorem chunkSections_len (cs co : Nat) :
    ∀ (sections : List DocSection),
      (chunkSections cs co sections).2.length = (chunkSections cs co sections).1.length := by
  intro sections
  induction sections with
  | nil => rfl
  | cons sec rest ih => simp [chunkSections, ih]

theorem filterSections_mem (s : DocSection) (sections : List DocSection)
    (h : s ∈ filterSections sections) : s ∈ sections := by
  simp only [filterSections] at h
  split at h
  · exact (List.mem_filter.mp h).1
  · exact (List.mem_filter.mp h).1

theorem snd_mem_of_mem_enumFrom {α : Type} :
    ∀ (l : List α) (n : Nat) (p : Nat × α), p ∈ l.enumFrom n → p.2 ∈ l := by
  intro l
  induction l with
  | nil => intro n p hp; simp [List.enumFrom] at hp
  | cons a t ih =>
    intro n p hp
    rw [List.enumFrom_cons] at hp
    rcases List.mem_cons.mp hp with h1 | h2
    · simp [h1]
    · exact List.mem_cons_of_mem _ (ih (n + 1) p h2)

theorem enumFrom_map_apply {α β : Type} (d : α) (f : Nat → α → β) :
    ∀ (l : List α) (n : Nat),
      (l.enumFrom n).map (fun p => f p.1 p.2) =
        (List.range l.length).map fun i => f (n + i) (l.getD i d) := by
  intro l
  induction l with
  | nil => intro n; simp
  | cons a t ih =>
    intro n
    rw [List.enumFrom_cons, List.map_cons, List.length_cons, List.range_succ_eq_map,
      List.map_cons, List.map_map]
    refine congrArg₂ List.cons (by simp) ?_
    rw [ih (n + 1)]
    refine List.map_congr_left fun i _ => ?_
    simp only [Function.comp_apply, List.getD_cons_succ]
    have : n + (i + 1) = n + 1 + i := by omega
    rw [this]

/-! ### Claim theorems -/

/-- C1: once the first line matching a back-matter heading pattern is
found, that line and everything after it are excluded: the text of every
section, and every chunk produced from the filtered sections, is drawn
entirely from the lines strictly before the first back-matter match
(the text of each is an infix of the pre-cutoff text). -/
theorem c1_back_matter_never_indexed (pages : List (List Char)) (cs co : Nat) :
    (∀ s ∈ splitSections pages,
      s.text <:+: joinLines
        (((flattenPages pages).takeWhile fun q => !referencesCutoff q.2).map fun q => q.2))
    ∧ ∀ c ∈ (chunkSections cs co (filterSections (splitSections pages))).1,
      c <:+: joinLines
        (((flattenPages pages).takeWhile fun q => !referencesCutoff q.2).map fun q => q.2) := by
  have part1 : ∀ s ∈ splitSections pages,
      s.text <:+: joinLines
        (((flattenPages pages).takeWhile fun q => !referencesCutoff q.2).map fun q => q.2) := by
    intro s hs
    simp only [splitSections] at hs
    split at hs
    · simp only [bodyOnly] at hs
      split at hs
      · simp at hs
      · simp at hs
        subst hs
        exact stripChars_inf _
    · exact buildSections_text_inf _ _ s hs
  refine ⟨part1, ?_⟩
  intro c hc
  obtain ⟨sec, hsec, r, hr, rfl⟩ := chunkSections_mem cs co _ c hc
  have h2 : r <:+: sec.text :=
    recSplit_mem_inf cs co [chars "\n\n", chars "\n", chars " "] sec.text r hr
  exact (stripChars_inf r).trans (h2.trans (part1 sec (filterSections_mem sec _ hsec)))

/-- C1 witness: on a concrete two-page document whose second page opens
with a references heading, the one surviving chunk is an infix of the
pre-cutoff text. -/
theorem c1_back_matter_never_indexed_witness :
    chars "Introduction\nhello" <:+: joinLines
      (((flattenPages [chars "Introduction\nhello", chars "References\nSmith 2020"]).takeWhile
        fun q => !referencesCutoff q.2).map fun q => q.2) :=
  (c1_back_matter_never_indexed
      [chars "Introduction\nhello", chars "References\nSmith 2020"] 500 50).2
    (chars "Introduction\nhello") (by decide)

/-- C2: section filtering keeps exactly the allow-listed sections in
order; when none match it returns the sections named "body"; chunking
an empty section list yields zero chunks and the embed/upsert step on
zero chunks is skipped (no call, no error). -/
theorem c2_filter_policy (sections : List DocSection) (cs co : Nat) (docId : List Char) :
    filterSections sections =
      (if sections.filter (fun s =>
            decide (s.name = "abstract") || decide (s.name = "introduction") ||
            decide (s.name = "conclusion") || decide (s.name = "future work") ||
            decide (s.name = "limitations") || decide (s.name = "discussion")) = []
       then sections.filter fun s => s.name == "body"
       else sections.filter fun s =>
            decide (s.name = "abstract") || decide (s.name = "introduction") ||
            decide (s.name = "conclusion") || decide (s.name = "future work") ||
            decide (s.name = "limitations") || decide (s.name = "discussion"))
    ∧ chunkSections cs co [] = ([], [])
    ∧ embedUpsert docId [] [] = none := by
  refine ⟨?_, rfl, rfl⟩
  have hf : sections.filter (fun s => keepNames.contains s.name) =
      sections.filter fun s =>
        decide (s.name = "abstract") || decide (s.name = "introduction") ||
        decide (s.name = "conclusion") || decide (s.name = "future work") ||
        decide (s.name = "limitations") || decide (s.name = "discussion") :=
    List.filter_congr fun x _ => by simp [keepNames, List.contains_cons, Bool.or_assoc]
  simp only [filterSections, hf]
  by_cases h : sections.filter (fun s =>
      decide (s.name = "abstract") || decide (s.name = "introduction") ||
      decide (s.name = "conclusion") || decide (s.name = "future work") ||
      decide (s.name = "limitations") || decide (s.name = "discussion")) = []
  · simp [h]
  · simp [h, List.isEmpty_iff]

/-- C3: when no kept line matches any heading pattern of the catalog,
segmentation yields a single "body" section holding all remaining
non-back-matter text if that text is non-empty, and no sections
otherwise. -/
theorem c3_no_heading_body (pages : List (List Char))
    (h : ∀ q ∈ (flattenPages pages).takeWhile fun q => !referencesCutoff q.2,
         ∀ p ∈ sectionPatterns, matchesPat p q.2 = false) :
    splitSections pages =
      if (stripChars (joinLines
          (((flattenPages pages).takeWhile fun q => !referencesCutoff q.2).map
            fun q => q.2))).isEmpty
      then []
      else [{ name := "body",
              text := stripChars (joinLines
                (((flattenPages pages).takeWhile fun q => !referencesCutoff q.2).map
                  fun q => q.2)),
              page_start := 1, page_end := pages.length }] := by
  have hheaders :
      findHeaders ((flattenPages pages).takeWhile fun q => !referencesCutoff q.2) = [] := by
    rw [findHeaders, List.filterMap_eq_nil_iff]
    intro a ha
    have hmem : a.2 ∈ (flattenPages pages).takeWhile fun q => !referencesCutoff q.2 :=
      snd_mem_of_mem_enumFrom _ 0 a ha
    have hfind : (sectionPatterns.find? fun p => matchesPat p a.2.2) = none :=
      List.find?_eq_none.mpr fun p hp => by simp [h a.2 hmem p hp]
    simp [headerName, hfind]
  simp only [splitSections, hheaders, List.isEmpty_nil, if_true, bodyOnly]

/-- C3 witness: a one-page document with no heading yields one "body"
section spanning the whole page. -/
theorem c3_no_heading_body_witness :
    splitSections [chars "hello there\nmore text"] =
      [{ name := "body", text := chars "hello there\nmore text",
         page_start := 1, page_end := 1 }] := by
  rw [c3_no_heading_body [chars "hello there\nmore text"] (by decide)]
  decide

/-- C4: the metadata attached by the embed/upsert step carries
`chunk_index` values exactly `0, 1, ..., n-1` in one running sequence
over the chunk list of the whole document (section order first, split
order within a section, never restarting per section), and the stored
identifiers are `doc_id ++ "_chunk_" ++ index`. -/
theorem c4_chunk_index_contiguous (sections : List DocSection) (cs co : Nat)
    (docId : List Char) :
    (chunkSections cs co sections).2.length = (chunkSections cs co sections).1.length
    ∧ (embedUpsert docId (chunkSections cs co sections).1
        (chunkSections cs co sections).2).map (fun u => u.metadatas.map fun m => m.2)
      = (if (chunkSections cs co sections).1 = [] then none
         else some (List.range (chunkSections cs co sections).1.length))
    ∧ (embedUpsert docId (chunkSections cs co sections).1
        (chunkSections cs co sections).2).map (fun u => u.ids)
      = (if (chunkSections cs co sections).1 = [] then none
         else some ((List.range (chunkSections cs co sections).1.length).map fun i =>
           docId ++ chars "_chunk_" ++ chars (toString i))) := by
  have hidx : ∀ (l : List ChunkMeta),
      (l.enum.map fun p => (p.2, p.1)).map (fun m => m.2) = List.range l.length := by
    intro l
    rw [List.map_map]
    have hcomp : ((fun m : ChunkMeta × Nat => m.2) ∘ fun p : Nat × ChunkMeta => (p.2, p.1)) =
        Prod.fst := rfl
    rw [hcomp, List.enum_map_fst]
  refine ⟨chunkSections_len cs co sections, ?_, ?_⟩
  · by_cases h : (chunkSections cs co sections).1 = []
    · simp [embedUpsert, h]
    · simp only [embedUpsert, List.isEmpty_iff, h, if_neg, Option.map_some']
      simp [h, hidx, chunkSections_len cs co sections]
  · by_cases h : (chunkSections cs co sections).1 = []
    · simp [embedUpsert, h]
    · simp [embedUpsert, h, List.isEmpty_iff]

/-- C5: every chunk produced by the chunker has length at most
`max_size` plus at most `overlap` characters of slack (the model in
fact guarantees at most `max_size`). -/
theorem c5_chunk_length_bound (sections : List DocSection) (maxSize overlap : Nat)
    (hov : overlap < maxSize) :
    ∀ c ∈ (chunkSections maxSize overlap sections).1, c.length ≤ maxSize + overlap := by
  intro c hc
  obtain ⟨sec, _, r, hr, rfl⟩ := chunkSections_mem maxSize overlap sections c hc
  have h1 : r.length ≤ maxSize :=
    recSplit_mem_le maxSize overlap hov [chars "\n\n", chars "\n", chars " "] sec.text r hr
  have h2 := stripChars_length_le r
  omega

/-- C5 witness: with `max_size = 5`, `overlap = 1`, a concrete chunk of
a concrete section respects the bound. -/
theorem c5_chunk_length_bound_witness : (chars "one").length ≤ 5 + 1 :=
  c5_chunk_length_bound [⟨"abstract", chars "one two three", 1, 1⟩] 5 1 (by decide)
    (chars "one") (by decide)

/-- Blocks of the context builder re-expressed by rank index. -/
theorem buildContext_blocks (docs : List (List Char)) :
    docs.enum.map (fun p => chars "[Source " ++ chars (toString (p.1 + 1)) ++ chars "]\n" ++
      (if p.2.length ≤ 4000 then p.2 else p.2.take 4000 ++ chars " ...")) =
    (List.range docs.length).map fun i =>
      chars "[Source " ++ chars (toString (i + 1)) ++ chars "]\n" ++
      (if (docs.getD i []).length ≤ 4000 then docs.getD i []
       else (docs.getD i []).take 4000 ++ chars " ...") := by
  have henum := enumFrom_map_apply ([] : List Char)
    (fun i x => chars "[Source " ++ chars (toString (i + 1)) ++ chars "]\n" ++
      (if x.length ≤ 4000 then x else x.take 4000 ++ chars " ...")) docs 0
  simp only [List.enum_eq_enumFrom]
  simpa using henum

/-- C6: context assembly returns the non-empty no-context sentinel on
empty input; otherwise one "[Source i]" block per document in rank
order with i starting at 1, over-long documents hard-truncated to 4000
characters plus an ellipsis marker, short documents unchanged, joined
by a blank line. -/
theorem c6_context_assembly (docs : List (List Char)) :
    buildContext docs =
      (if docs = [] then chars "No context available."
       else List.intercalate (chars "\n\n") ((List.range docs.length).map fun i =>
         chars "[Source " ++ chars (toString (i + 1)) ++ chars "]\n" ++
         (if (docs.getD i []).length ≤ 4000 then docs.getD i []
          else (docs.getD i []).take 4000 ++ chars " ...")))
    ∧ chars "No context available." ≠ []
    ∧ buildContext [] = chars "No context available." := by
  refine ⟨?_, by decide, rfl⟩
  by_cases h : docs = []
  · simp [h, buildContext]
  · simp only [buildContext, List.isEmpty_iff, h, if_neg, if_false]
    rw [buildContext_blocks]

/-- C7: when the direct text extraction of a page yields nothing and the OCR
fallback also fails, that page contributes the empty string, and every
page still contributes exactly one entry (ingestion continues over the
remaining pages). -/
theorem c7_page_failure_degrades (outs : List (Option (List Char) × Option (List Char)))
    (i : Nat) (h : outs[i]? = some (none, none)) :
    (extractPages outs)[i]? = some [] ∧ (extractPages outs).length = outs.length := by
  constructor
  · simp only [extractPages, List.getElem?_map, h]
    rfl
  · simp [extractPages]

/-- C7 witness: a one-page document whose only page fails both
extraction and OCR. -/
theorem c7_page_failure_degrades_witness :
    (extractPages [(none, none)])[0]? = some [] ∧ (extractPages [(none, none)]).length = 1 :=
  c7_page_failure_degrades [(none, none)] 0 rfl

/-- C8: when chunking yields zero chunks, the embed/upsert call is
skipped (`none`: no embedder or vector-store call) and the ingestion
result still reports success with zero chunks and zero embedded
chunks. -/
theorem c8_zero_chunks_skips_embed (pages : List (List Char)) (baseName suffix : List Char)
    (cs co : Nat)
    (h : (chunkSections cs co (filterSections (splitSections pages))).1 = []) :
    (ingestPath pages baseName suffix cs co).2 = none
    ∧ (ingestPath pages baseName suffix cs co).1.ok = true
    ∧ (ingestPath pages baseName suffix cs co).1.chunks = 0
    ∧ (ingestPath pages baseName suffix cs co).1.embedded = 0 := by
  simp only [ingestPath]
  refine ⟨?_, ?_, ?_, ?_⟩
  · simp [embedUpsert, h]
  · simp
  · simp [h]
  · simp [h]

/-- C8 witness: the empty document produces zero chunks, no upsert
call, and a success result. -/
theorem c8_zero_chunks_skips_embed_witness :
    (ingestPath [] (chars "paper") (chars "0a2b3c4d") 500 50).2 = none
    ∧ (ingestPath [] (chars "paper") (chars "0a2b3c4d") 500 50).1.ok = true
    ∧ (ingestPath [] (chars "paper") (chars "0a2b3c4d") 500 50).1.chunks = 0
    ∧ (ingestPath [] (chars "paper") (chars "0a2b3c4d") 500 50).1.embedded = 0 :=
  c8_zero_chunks_skips_embed [] (chars "paper") (chars "0a2b3c4d") 500 50 (by decide)

/-- C9 counterexample: doc_id generation is a pure function of the base
filename and the randomly drawn suffix, with no collision check, so two
ingestion calls on the same base filename that draw the same
8-character suffix produce the SAME doc_id — the claimed distinctness
for every pair of calls fails. -/
theorem c9_doc_id_counterexample :
    mkDocId (chars "paper") (chars "0a2b3c4d") = mkDocId (chars "paper") (chars "0a2b3c4d")
    ∧ (chars "0a2b3c4d").length = 8 :=
  ⟨rfl, by decide⟩

/-- C9 (amended): doc_ids from two ingestion calls are distinct
whenever the base filenames differ or the drawn 8-character suffixes
differ; only a repeated random draw for the same filename collides. -/
theorem c9_doc_id_injective (b1 b2 s1 s2 : List Char)
    (h1 : s1.length = 8) (h2 : s2.length = 8) (hne : b1 ≠ b2 ∨ s1 ≠ s2) :
    mkDocId b1 s1 ≠ mkDocId b2 s2 := by
  intro he
  simp only [mkDocId] at he
  have hl : ('_' :: s1).length = ('_' :: s2).length := by simp [h1, h2]
  obtain ⟨hb, hs⟩ := List.append_inj' he hl
  have hs2 : s1 = s2 := by injection hs
  rcases hne with hcase | hcase
  · exact hcase hb
  · exact hcase hs2

/-- C9 witness: same filename but different suffixes give different
doc_ids. -/
theorem c9_doc_id_injective_witness :
    mkDocId (chars "paper") (chars "00000000") ≠ mkDocId (chars "paper") (chars "00000001") :=
  c9_doc_id_injective (chars "paper") (chars "paper") (chars "00000000") (chars "00000001")
    (by decide) (by decide) (Or.inr (by decide))

/-- C10: the hit lists returned by retrieve all share one length `n` —
the minimum of the lengths the index returned, additionally bounded by
the ids length when ids are present — and the ids list has length `n`
or `0`. -/
theorem c10_retrieve_hit_lists_aligned {α β γ δ : Type} (res : QueryRaw α β γ δ) :
    (retrieveModel res).documents.length =
      (if (firstRow res.ids).isEmpty
       then min (min (firstRow res.documents).length (firstRow res.metadatas).length)
         (firstRow res.distances).length
       else min (min (min (firstRow res.documents).length (firstRow res.metadatas).length)
         (firstRow res.distances).length) (firstRow res.ids).length)
    ∧ (retrieveModel res).metadatas.length = (retrieveModel res).documents.length
    ∧ (retrieveModel res).distances.length = (retrieveModel res).documents.length
    ∧ ((retrieveModel res).ids.length = (retrieveModel res).documents.length
       ∨ (retrieveModel res).ids.length = 0) := by
  simp only [retrieveModel]
  by_cases h : (firstRow res.ids).isEmpty
  · simp only [h, if_true, List.length_take]
    refine ⟨by omega, by omega, by omega, Or.inr ?_⟩
    simp [h]
  · simp only [h, if_false, List.length_take, Bool.false_eq_true]
    have hlen : (firstRow res.ids).length ≠ 0 := by
      simpa [List.isEmpty_iff, List.length_eq_zero] using h
    refine ⟨by omega, by omega, by omega, Or.inl (by omega)⟩
